import Mathlib

/-!
# Verification of the fcgiwrap_go concurrent dispatch / lifecycle / security engine

This file gives a shallow embedding of the core of `fcgiwrap_go` (script
validation, CGI command preparation, environment inheritance filtering,
CGI response-preamble translation, the admission wrapper, the idle-timer
loop step, and the worker semaphore) and proves the frozen claims about it.

Paths are Unix slash-separated strings; the Go standard library functions
`path/filepath.Clean`, `Rel`, `Join`, `Dir`, `IsAbs` and `strings.SplitN`,
`TrimSpace`, `TrimRight`, `HasPrefix` used by the code are modelled
faithfully for such paths (no volume names, which do not exist on Unix).
-/

namespace Fcgi

/-! ## Model of Go `path/filepath` (Unix rules) -/

/-- Split a character list at every `'/'`; chunks never contain `'/'`.
Models the element decomposition that `filepath.Clean` and `filepath.Rel`
perform by scanning for the separator. -/
def splitSlash : List Char → List (List Char)
  | [] => [[]]
  | c :: rest =>
    match splitSlash rest with
    | [] => [[]]
    | g :: gs => if c = '/' then [] :: g :: gs else (c :: g) :: gs

/-- Join path elements with `'/'`. -/
def joinSlash : List (List Char) → List Char
  | [] => []
  | [c] => c
  | c :: cs => c ++ '/' :: joinSlash cs

/-- How Go `filepath.Clean` resolves one `".."` element against the
output stack `out` (held in reverse order): at the root of an absolute
path it is dropped; on a relative path with nothing to pop (or only
`".."` on the stack) it is kept; otherwise it pops one element. -/
def dotdotStack (abs : Bool) : List (List Char) → List (List Char)
  | [] => if abs then [] else [['.', '.']]
  | top :: rest =>
    if top = ['.', '.'] then ['.', '.'] :: top :: rest else rest

/-- The element-processing loop of Go `filepath.Clean` proper. -/
def cleanLoop (abs : Bool) : List (List Char) → List (List Char) → List (List Char)
  | out, [] => out.reverse
  | out, c :: cs =>
    if c = ['.'] then cleanLoop abs out cs
    else if c = ['.', '.'] then cleanLoop abs (dotdotStack abs out) cs
    else cleanLoop abs (c :: out) cs

/-- Go `filepath.IsAbs` on Unix: the path starts with `'/'`. -/
def isAbs (s : String) : Bool :=
  match s.data with
  | '/' :: _ => true
  | _ => false

/-- A lexically cleaned path: absoluteness flag plus its path elements. -/
structure PathC where
  abs : Bool
  comps : List (List Char)
  deriving DecidableEq, Repr

/-- Clean a path into absoluteness flag and element list
(Go `filepath.Clean`, before re-rendering the string). -/
def cleanComps (s : String) : PathC :=
  ⟨isAbs s, cleanLoop (isAbs s) [] ((splitSlash s.data).filter (fun c => c ≠ []))⟩

/-- Render a cleaned path back to a string, as Go `filepath.Clean` does:
an absolute path gets a leading `'/'`, an empty relative path is `"."`. -/
def renderPath (p : PathC) : String :=
  if p.abs then String.mk ('/' :: joinSlash p.comps)
  else if p.comps = [] then "."
  else String.mk (joinSlash p.comps)

/-- Go `filepath.Clean` (Unix). -/
def clean (s : String) : String := renderPath (cleanComps s)

/-- Go `strings.HasPrefix`. -/
def hasPfx (p s : String) : Bool := List.isPrefixOf p.data s.data

/-- The output-building step of Go `filepath.Rel`, after the common leading
elements of cleaned base and target have been removed: if the first
remaining base element is `".."` the paths cannot be related; otherwise
every remaining base element becomes one `".."` and the remaining target
elements follow. -/
def mkRel (bs ts : List (List Char)) : Option (List (List Char)) :=
  if bs.head? = some ['.', '.'] then none
  else some (bs.map (fun _ => ['.', '.']) ++ ts)

/-- The element-comparison loop of Go `filepath.Rel`: strip the common
leading elements, then build the result with `mkRel`. -/
def relWalk : List (List Char) → List (List Char) → Option (List (List Char))
  | b :: bs, t :: ts => if b = t then relWalk bs ts else mkRel (b :: bs) (t :: ts)
  | bs, ts => mkRel bs ts

/-- Render the element list produced by `relWalk` (empty means `"."`,
which Go returns early for equal cleaned paths). -/
def renderRel (rcs : List (List Char)) : String :=
  if rcs = [] then "." else String.mk (joinSlash rcs)

/-- Go `filepath.Rel` (Unix): clean both paths, return `"."` when they are
equal, fail when exactly one is absolute, otherwise walk the elements.
A cleaned relative base equal to `"."` contributes no elements (Go replaces
it by the empty string); a cleaned relative target equal to `"."` is kept
as the single element `"."`, as in Go's character-level scan. -/
def rel (base targ : String) : Option String :=
  let bP := cleanComps base
  let tP := cleanComps targ
  if renderPath bP = renderPath tP then some "."
  else if bP.abs ≠ tP.abs then none
  else
    let tcs := if tP.abs = false ∧ tP.comps = [] then [['.']] else tP.comps
    (relWalk bP.comps tcs).map renderRel

/-- Go `filepath.Join` on two elements: empty elements are skipped, the
rest are joined with `'/'` and cleaned; all-empty input gives `""`. -/
def join2 (a b : String) : String :=
  if a = "" then (if b = "" then "" else clean b)
  else if b = "" then clean a
  else clean (String.mk (a.data ++ '/' :: b.data))

/-- The characters of a path up to and including its last `'/'`
(empty if there is no `'/'`): the `dir` half of Go `filepath.Split`. -/
def upToLastSlash : List Char → List Char
  | [] => []
  | c :: rest =>
    let r := upToLastSlash rest
    if r = [] then (if c = '/' then ['/'] else [])
    else c :: r

/-- Go `filepath.Dir` (Unix): everything up to the final separator,
cleaned (`"."` when there is no separator). -/
def dirName (p : String) : String := clean (String.mk (upToLastSlash p.data))

/-! ## Filesystem model

`validateScript` inspects the filesystem with `os.Lstat` (which does not
follow symlinks) and the `FCGI_CHDIR` handling with `os.Stat`.  Both are
modelled as functions from a path to an inspection result. -/

/-- The type of a directory entry as read from its mode bits. -/
inductive FileType where
  | regular
  | symlink
  | dir
  | other
  deriving DecidableEq, Repr

/-- The part of Go `os.FileInfo` the code reads: the type of the entry and
its permission bits (`Mode().Perm()`, nine bits). -/
structure FileInfo where
  ftype : FileType
  perm : Nat
  deriving DecidableEq, Repr

/-- Result of an `os.Lstat` / `os.Stat` call: the entry is absent
(`os.IsNotExist`), the call failed for another reason, or it returned
file information. -/
inductive StatResult where
  | notExist
  | statErr
  | found (info : FileInfo)
  deriving DecidableEq, Repr

/-- A filesystem: `lstat` (no symlink following) and `stat` views. -/
structure FS where
  lstat : String → StatResult
  stat : String → StatResult

/-! ## `validateScript` (src/cgi.go) -/

/-- The distinct errors of `validateScript`, in source order. -/
inductive VErr where
  | mustBeAbsolute
  | outsideDocRoot
  | notFound
  | lstatFailed
  | symlinkUnsupported
  | notRegularFile
  | notExecutable
  deriving DecidableEq, Repr

/-- The absoluteness requirement of `validateScript` (src/cgi.go:18-20). -/
def checkAbs (script : String) : Except VErr Unit :=
  if isAbs script then .ok () else .error .mustBeAbsolute

/-- The containment step of `validateScript` (src/cgi.go:25-31): when the
document root is non-empty, compute `filepath.Rel(docRoot, script)` on the
cleaned script and reject when it fails or the relative path has the
string prefix `".."`. -/
def checkContainment (scriptC docRoot : String) : Except VErr Unit :=
  if docRoot ≠ "" then
    match rel docRoot scriptC with
    | none => .error .outsideDocRoot
    | some r => if hasPfx ".." r then .error .outsideDocRoot else .ok ()
  else .ok ()

/-- The filesystem inspection of `validateScript` (src/cgi.go:35-50):
`os.Lstat`, then symlink, regular-file and execute-bit checks in order. -/
def checkFile (entry : StatResult) : Except VErr Unit :=
  match entry with
  | .notExist => .error .notFound
  | .statErr => .error .lstatFailed
  | .found info =>
    if info.ftype = .symlink then .error .symlinkUnsupported
    else if ¬ info.ftype = .regular then .error .notRegularFile
    else if info.perm &&& 0o111 = 0 then .error .notExecutable
    else .ok ()

/-- `validateScript` (src/cgi.go:17-54): absoluteness, lexical cleaning,
containment in the document root, then the lstat-based file checks. -/
def validateScript (fs : FS) (script docRoot : String) : Except VErr Unit := do
  _ ← checkAbs script
  let scriptC := clean script
  _ ← checkContainment scriptC docRoot
  checkFile (fs.lstat scriptC)

/-! ## Environment model -/

/-- A request-parameter map (the CGI meta-variables of one request),
as an association list; Go's `map[string]string` has unique keys, which
theorems assume via a `Nodup` hypothesis on the keys. -/
abbrev Env := List (String × String)

/-- Go map read with `ok` flag: the value stored for `k`, if any. -/
def Env.get? (e : Env) (k : String) : Option String :=
  (e.find? (fun p => p.1 = k)).map (fun p => p.2)

/-- Go map read without `ok` flag: absent keys give the zero value `""`. -/
def Env.getD (e : Env) (k : String) : String := (Env.get? e k).getD ""

/-- Break a character list at the first occurrence of `sep`: the part
before it, and — when `sep` occurs — the part after it. -/
def breakAt (sep : Char) : List Char → (List Char × Option (List Char))
  | [] => ([], none)
  | c :: rest =>
    if c = sep then ([], some rest)
    else
      let r := breakAt sep rest
      (c :: r.1, r.2)

/-- Go `strings.SplitN(s, sep, 2)` for a one-character separator: split at
the first occurrence; a string without the separator stays whole. -/
def splitN2 (sep : Char) (s : List Char) : List (List Char) :=
  match breakAt sep s with
  | (before, none) => [before]
  | (before, some after) => [before, after]

/-- The name under which an environment entry `"NAME=VALUE"` is seen by the
splitting helpers: everything before the first `'='` (the whole string when
there is no `'='`).  Used only to state theorems. -/
def keyOf (kv : String) : String :=
  match splitN2 '=' kv.data with
  | k :: _ => String.mk k
  | [] => ""

/-- The deny set `forbidden_env_inherits` (src/unnamed/part_005:42-70):
CGI request meta-variables and dynamic-loader variables. -/
def forbidden_env_inherits : List String :=
  ["AUTH_TYPE", "CONTENT_LENGTH", "CONTENT_TYPE", "GATEWAY_INTERFACE",
   "PATH_INFO", "PATH_TRANSLATED", "QUERY_STRING", "REMOTE_ADDR",
   "REMOTE_HOST", "REMOTE_IDENT", "REMOTE_USER", "REQUEST_METHOD",
   "SCRIPT_NAME", "SERVER_NAME", "SERVER_PORT", "SERVER_PROTOCOL",
   "SERVER_SOFTWARE",
   "LD_PRELOAD", "LD_LIBRARY_PATH", "LD_AUDIT", "LD_DEBUG",
   "LD_DYNAMIC_WEAK", "LD_BIND_NOW", "LD_ORIGIN_PATH", "LD_ASSUME_KERNEL",
   "LD_CONFIG_FILE"]

/-- `allowed_env_inherit` (src/unnamed/part_005:72-85): split the entry on
`"="` — indexing the second component, which panics (`none`) when the entry
has no `"="` — and deny names with the string prefix `"HTTP"` or in the
deny set. -/
def allowed_env_inherit (kv : String) : Option Bool :=
  match splitN2 '=' kv.data with
  | [k, _v] =>
    some (if hasPfx "HTTP" (String.mk k) then false
          else if forbidden_env_inherits.contains (String.mk k) then false
          else true)
  | _ => none

/-- `setupEnv` (src/unnamed/part_005:87-96): keep exactly the host
environment entries `allowed_env_inherit` accepts, in order; `none` models
a panic on a malformed entry. -/
def setupEnv : List String → Option (List String)
  | [] => some []
  | e :: rest => do
    let a ← allowed_env_inherit e
    let r ← setupEnv rest
    pure (if a then e :: r else r)

/-- The first loop of `inherit_environment` (src/cgi.go:112-118): emit
`k+"="+v` for each request parameter not seen before, returning the emitted
entries and the extended seen set. -/
def paramsLoop (seen : List String) : Env → (List String × List String)
  | [] => ([], seen)
  | (k, v) :: rest =>
    if k ∈ seen then paramsLoop seen rest
    else
      ((k ++ "=" ++ v) :: (paramsLoop (k :: seen) rest).1,
        (paramsLoop (k :: seen) rest).2)

/-- The second loop of `inherit_environment` (src/cgi.go:120-128): split
each inherited entry on `"="` (indexing the second component — a panic,
modelled as `none`, when there is no `"="`), skip names already seen, keep
the rest verbatim. -/
def inheritLoop (seen : List String) : List String → Option (List String)
  | [] => some []
  | i :: rest =>
    match splitN2 '=' i.data with
    | [k, _v] =>
      if String.mk k ∈ seen then inheritLoop seen rest
      else do
        let r ← inheritLoop (String.mk k :: seen) rest
        pure (i :: r)
    | _ => none

/-- `inherit_environment` (src/cgi.go:108-131): request parameters first,
then the inherited entries whose names were not yet seen. -/
def inherit_environment (env : Env) (inherited : List String) : Option (List String) :=
  (inheritLoop (paramsLoop [] env).2 inherited).map
    (fun r => (paramsLoop [] env).1 ++ r)

/-! ## `prepareCGICommand` (src/cgi.go:56-106) -/

/-- The errors of `prepareCGICommand` outside `validateScript`. -/
inductive PrepErr where
  | missingDocRoot
  | missingScriptName
  | validation (e : VErr)
  | chdirMustBeAbsolute
  | chdirStatFailed
  | chdirNotDir
  deriving DecidableEq, Repr

/-- The candidate-script resolution at the top of `prepareCGICommand`
(src/cgi.go:58-71): returns the candidate script path and the document
root. -/
def resolveScriptPath (env : Env) : Except PrepErr (String × String) :=
  let script := Env.getD env "SCRIPT_FILENAME"
  let docRoot := Env.getD env "DOCUMENT_ROOT"
  let ok := (Env.get? env "DOCUMENT_ROOT").isSome
  if script = "" ∧ (¬ ok ∨ docRoot = "") then .error .missingDocRoot
  else if script = "" then
    let scriptName := Env.getD env "SCRIPT_NAME"
    let okN := (Env.get? env "SCRIPT_NAME").isSome
    if ¬ okN ∨ scriptName = "" then .error .missingScriptName
    else .ok (join2 docRoot scriptName, docRoot)
  else .ok (script, docRoot)

/-- The command `prepareCGICommand` builds: the executable path, the
working directory (`none` when `cmd.Dir` is left empty, i.e. the spawning
process's current directory), and the subprocess environment. -/
structure Cmd where
  path : String
  dir : Option String
  env : List String
  deriving DecidableEq, Repr

/-- `prepareCGICommand` (src/cgi.go:56-106): resolve the candidate path,
validate it, build the environment (outer `none` models the panic of
`inherit_environment` on a malformed inherited entry), then resolve the
working directory from `FCGI_CHDIR`.  A spawned process exists only behind
`.ok`. -/
def prepareCGICommand (fs : FS) (env : Env) (inherited : List String) :
    Option (Except PrepErr Cmd) :=
  match resolveScriptPath env with
  | .error e => some (.error e)
  | .ok (script, docRoot) =>
    match validateScript fs script docRoot with
    | .error e => some (.error (.validation e))
    | .ok _ =>
      match inherit_environment env inherited with
      | none => none
      | some cmdEnv =>
        match Env.get? env "FCGI_CHDIR" with
        | some d =>
          if d = "-" then some (.ok ⟨script, none, cmdEnv⟩)
          else if ¬ isAbs d then some (.error .chdirMustBeAbsolute)
          else
            match fs.stat d with
            | .notExist => some (.error .chdirStatFailed)
            | .statErr => some (.error .chdirStatFailed)
            | .found info =>
              if ¬ info.ftype = .dir then some (.error .chdirNotDir)
              else some (.ok ⟨script, some d, cmdEnv⟩)
        | none => some (.ok ⟨script, some (dirName script), cmdEnv⟩)

/-! ## Response translator (`cgiResponder`, src/unnamed/part_000:66-91) -/

/-- Go `unicode.IsSpace` (the White_Space property), as used by
`strings.TrimSpace`. -/
def goIsSpace (c : Char) : Bool :=
  c = ' ' ∨ c = '\t' ∨ c = '\n' ∨ c = '\x0b' ∨ c = '\x0c' ∨ c = '\r' ∨
  c = '\x85' ∨ c = '\xa0' ∨ c = ' ' ∨
  (' ' ≤ c ∧ c ≤ ' ') ∨ c = ' ' ∨ c = ' ' ∨
  c = ' ' ∨ c = ' ' ∨ c = '　'

/-- Go `strings.TrimRight(line, "\r\n")`: drop every trailing `'\r'` or
`'\n'`. -/
def trimRightCRLF (l : List Char) : List Char :=
  (l.reverse.dropWhile (fun c => c = '\r' ∨ c = '\n')).reverse

/-- Go `strings.TrimSpace`. -/
def trimSpace (l : List Char) : List Char :=
  ((l.dropWhile goIsSpace).reverse.dropWhile goIsSpace).reverse

/-- One parsed header line: split the trimmed line at the first `':'` and
trim name and value; a line without `':'` produces nothing. -/
def headerOfLine (l : List Char) : Option (String × String) :=
  match splitN2 ':' l with
  | [k, v] => some (String.mk (trimSpace k), String.mk (trimSpace v))
  | _ => none

/-- The header-scanning loop of `cgiResponder`
(src/unnamed/part_000:66-91): read lines terminated by `'\n'`
(accumulated in reverse in `cur`), strip trailing `"\r\n"`, stop at the
first empty line and return the parsed headers together with the
remaining bytes (the body, forwarded verbatim); if the stream ends before
an empty line is seen the request fails (`none`: Bad Gateway, no body).
Lines without a `':'` are skipped.  Written with `List.rec` so that the
kernel can evaluate it on concrete streams. -/
def scanHeaders (s : List Char) : List Char → Option (List (String × String) × List Char) :=
  List.rec
    (fun _cur => none)
    (fun c rest ih cur =>
      if c = '\n' then
        let l := trimRightCRLF cur.reverse
        if l = [] then some ([], rest)
        else
          match headerOfLine l with
          | some h => (ih []).map (fun p => (h :: p.1, p.2))
          | none => ih []
      else ih (c :: cur))
    s

/-- What `scanHeaders` does with one complete line `l` (already stripped
of its terminator): an empty line ends the headers with the rest as body;
otherwise the line is parsed (and skipped if it has no `':'`) and scanning
continues. -/
def lineStep (l rest : List Char) : Option (List (String × String) × List Char) :=
  if l = [] then some ([], rest)
  else
    match headerOfLine l with
    | some h => (scanHeaders rest []).map (fun p => (h :: p.1, p.2))
    | none => scanHeaders rest []

/-- The response translation of `cgiResponder`: headers parsed from the
stream before the first empty line, and the body bytes after it. -/
def cgiTranslate (s : String) : Option (List (String × String) × String) :=
  (scanHeaders s.data []).map (fun p => (p.1, String.mk p.2))

/-! ## Admission wrapper (`fcgiHandler`, src/unnamed/part_003:59-87) -/

/-- The observable actions of one `fcgiHandler` invocation. -/
inductive HEvent where
  | wgAdd
  | wgDone
  | jobsInc
  | jobsDec
  | semAcquire
  | semAcquireFail
  | semRelease
  | timerRefresh
  | innerRun
  deriving DecidableEq, Repr

/-- A Go stack frame for trace building: emitted events plus the stack of
deferred event sequences (run in LIFO order on return). -/
structure GoFrame where
  trace : List HEvent
  defers : List (List HEvent)
  deriving DecidableEq, Repr

/-- Emit one event. -/
def GoFrame.emit (f : GoFrame) (e : HEvent) : GoFrame :=
  { f with trace := f.trace ++ [e] }

/-- Push a `defer`. -/
def GoFrame.deferAdd (f : GoFrame) (es : List HEvent) : GoFrame :=
  { f with defers := es :: f.defers }

/-- Return from the function: run the deferred sequences, last first. -/
def GoFrame.ret (f : GoFrame) : List HEvent :=
  f.trace ++ f.defers.flatten

/-- The event trace of one `fcgiHandler` invocation
(src/unnamed/part_003:61-86): register with the wait group and the
active-job counter (with deferred deregistration), then — when a worker
semaphore is configured — acquire a token (returning early on
cancellation, with a deferred release on success), refresh the idle timer,
run the inner pipeline, and refresh the idle timer again. -/
def fcgiHandlerTrace (hasSem acquireOk : Bool) : List HEvent :=
  let f : GoFrame := ⟨[], []⟩
  let f := f.emit .wgAdd
  let f := f.deferAdd [.wgDone]
  let f := f.emit .jobsInc
  let f := f.deferAdd [.jobsDec]
  if hasSem then
    if acquireOk then
      let f := f.emit .semAcquire
      let f := f.deferAdd [.semRelease]
      let f := f.emit .timerRefresh
      let f := f.emit .innerRun
      let f := f.emit .timerRefresh
      f.ret
    else
      let f := f.emit .semAcquireFail
      f.ret
  else
    let f := f.emit .timerRefresh
    let f := f.emit .innerRun
    let f := f.emit .timerRefresh
    f.ret

/-! ## Idle-timer main loop (src/main.go:82-102) and worker semaphore -/

/-- The lifecycle phase of the server's main loop: `running` inside the
select loop, `draining` after `break loop` (listener closed, drain wait). -/
inductive Phase where
  | running
  | draining
  deriving DecidableEq, Repr

/-- The events the main select loop reacts to. -/
inductive LoopEv where
  | serveErr
  | signal
  | timerFire
  deriving DecidableEq, Repr

/-- One iteration of the main select loop (src/main.go:82-102), given the
current active-job count and the configured timeout: the resulting phase
and the timer re-arm duration (`none` when the timer is not re-armed).
On `timerFire` with no active jobs the loop breaks into draining;
with active jobs it re-arms the timer for the full duration and stays
running. -/
def mainLoopStep (activeJobs : Int) (timeoutSecs : Nat) :
    LoopEv → Phase × Option Nat
  | .serveErr => (.draining, none)
  | .signal => (.draining, none)
  | .timerFire =>
    if activeJobs = 0 then (.draining, none)
    else (.running, some timeoutSecs)

/-- The worker-semaphore configuration (src/main.go:69-71): a weighted
semaphore of `workers` permits when `workers > 0`, otherwise no semaphore
(admission unbounded). -/
def mkSem (workers : Int) : Option Nat :=
  if workers > 0 then some workers.toNat else none

/-- Semaphore operations. -/
inductive SemOp where
  | acquire
  | release
  deriving DecidableEq, Repr

/-- One step of a weighted semaphore with capacity `w` holding `count`
outstanding permits: `Acquire(1)` completes only while a permit is free
(otherwise the caller blocks — no step), `Release(1)` requires an
outstanding permit. -/
def semStep (w count : Nat) : SemOp → Option Nat
  | .acquire => if count + 1 ≤ w then some (count + 1) else none
  | .release => if count = 0 then none else some (count - 1)

/-- The outstanding-permit counts reachable from an idle semaphore through
any interleaving of completed acquires and releases. -/
inductive SemReach (w : Nat) : Nat → Prop where
  | init : SemReach w 0
  | step {c c' : Nat} (op : SemOp) : SemReach w c → semStep w c op = some c' →
      SemReach w c'

/-! ## Spec-level definitions (for refinement statements)

These follow the specification's words, to be compared with the
definitions above that are translated from the source. -/

/-- Modelled from the spec: "the normalized path is equal to or nested
under it [`DOCUMENT_ROOT`]" — the path equals the (cleaned) root, or lives
strictly below that directory. -/
def specNestedUnder (p root : String) : Bool :=
  let r := clean root
  p == r || (if r == "/" then isAbs p else hasPfx (String.mk (r.data ++ ['/'])) p)

/-- A concrete filesystem for instantiating theorems: every path resolves
(under `lstat`) to a regular file with permission bits `0755`, and (under
`stat`) to a directory. -/
def fsAllRegular : FS :=
  ⟨fun _ => .found ⟨.regular, 0o755⟩, fun _ => .found ⟨.dir, 0o755⟩⟩

/-! ## Theorems -/

/-- C7: when the idle timer fires, the main loop breaks into draining
exactly when the active-job count is 0; with jobs in flight it re-arms the
timer for the full configured duration and stays running. -/
theorem C7_timer_fire_drains_iff_idle (n : Int) (t : Nat) :
    ((mainLoopStep n t .timerFire).1 = .draining ↔ n = 0) ∧
    (n ≠ 0 → mainLoopStep n t .timerFire = (.running, some t)) := by
  refine ⟨⟨fun h => ?_, fun h => by simp [mainLoopStep, h]⟩,
    fun h => by simp [mainLoopStep, h]⟩
  by_contra hn
  simp [mainLoopStep, hn] at h

/-- Witness for C7 at concrete active-job counts 0 and 3. -/
theorem C7_timer_fire_drains_iff_idle_witness :
    (mainLoopStep 0 30 .timerFire).1 = .draining ∧
    mainLoopStep 3 30 .timerFire = (.running, some 30) :=
  ⟨(C7_timer_fire_drains_iff_idle 0 30).1.2 rfl,
   (C7_timer_fire_drains_iff_idle 3 30).2 (by decide)⟩

/-- C8: with a configured worker limit `w > 0` the semaphore has `w`
permits and in every reachable state the number of outstanding permits —
the number of requests inside the inner pipeline — is at most `w`; with
`w ≤ 0` no semaphore exists and the admission wrapper performs no
acquisition at all. -/
theorem C8_worker_limit_bound (w : Int) :
    (∀ W c, mkSem w = some W → SemReach W c → c ≤ W) ∧
    (w ≤ 0 → mkSem w = none ∧
      ∀ ak, HEvent.semAcquire ∉ fcgiHandlerTrace false ak ∧
        HEvent.semAcquireFail ∉ fcgiHandlerTrace false ak) := by
  constructor
  · intro W c _ hr
    induction hr with
    | init => exact Nat.zero_le W
    | @step c c' op _ hstep ih =>
      cases op with
      | acquire =>
        by_cases h : c + 1 ≤ W
        · simp only [semStep, if_pos h, Option.some.injEq] at hstep
          omega
        · simp [semStep, if_neg h] at hstep
      | release =>
        by_cases h : c = 0
        · simp [semStep, if_pos h] at hstep
        · simp only [semStep, if_neg h, Option.some.injEq] at hstep
          omega
  · intro hw
    refine ⟨by simp [mkSem]; omega, fun ak => ?_⟩
    cases ak <;> exact ⟨by decide, by decide⟩

/-- Witness for C8: with limit 2, the state with both permits held is
reachable and bounded by 2, and a non-positive limit yields no semaphore. -/
theorem C8_worker_limit_bound_witness :
    SemReach 2 2 ∧ 2 ≤ 2 ∧ mkSem (-1) = none := by
  have h1 : SemReach 2 1 := .step .acquire .init (by decide)
  have h2 : SemReach 2 2 := .step .acquire h1 (by decide)
  exact ⟨h2, (C8_worker_limit_bound 2).1 2 2 rfl h2,
    ((C8_worker_limit_bound (-1)).2 (by decide)).1⟩

/-- C6 counterexample: the claim says the idle timer is refreshed at
admission, before token acquisition.  In the code the refresh happens only
after the semaphore is acquired: with a semaphore configured, no
`timerRefresh` event precedes the `semAcquire` event, and on the
cancelled-acquisition path no refresh happens at all. -/
theorem C6_refresh_before_acquire_cex :
    HEvent.timerRefresh ∉
      (fcgiHandlerTrace true true).takeWhile (fun e => e != .semAcquire) ∧
    HEvent.timerRefresh ∉ fcgiHandlerTrace true false := by decide

/-- C6 amended: the wrapper refreshes the idle timer only after token
acquisition (everything before the inner pipeline is registration,
acquisition, one refresh), and on every exit of the inner pipeline it
refreshes the timer again, releases the token (when one was acquired),
decrements the active-job count and deregisters from the wait group. -/
theorem C6_admission_cleanup :
    ∀ hasSem acqOk : Bool,
      (HEvent.innerRun ∈ fcgiHandlerTrace hasSem acqOk →
        (fcgiHandlerTrace hasSem acqOk).dropWhile (fun e => e != .innerRun) =
          .innerRun :: .timerRefresh ::
            ((if hasSem then [HEvent.semRelease] else []) ++
              [.jobsDec, .wgDone])) ∧
      (hasSem = true → acqOk = true →
        (fcgiHandlerTrace hasSem acqOk).takeWhile (fun e => e != .innerRun) =
          [.wgAdd, .jobsInc, .semAcquire, .timerRefresh]) := by decide

/-- Witness for C6 (amended) with a semaphore and successful acquisition. -/
theorem C6_admission_cleanup_witness :
    (fcgiHandlerTrace true true).dropWhile (fun e => e != HEvent.innerRun) =
      [.innerRun, .timerRefresh, .semRelease, .jobsDec, .wgDone] := by
  have h := (C6_admission_cleanup true true).1 (by decide)
  simpa using h

/-- `breakAt` leaves a separator-free list whole. -/
theorem breakAt_no_sep {sep : Char} {s : List Char} (h : sep ∉ s) :
    breakAt sep s = (s, none) := by
  induction s with
  | nil => rfl
  | cons c cs ih =>
    simp only [List.mem_cons, not_or] at h
    have hc : ¬ c = sep := fun hc => h.1 hc.symm
    simp [breakAt, hc, ih h.2]

/-- `breakAt` finds a part after the separator exactly when the separator
occurs. -/
theorem breakAt_isSome_iff {sep : Char} {s : List Char} :
    ((breakAt sep s).2.isSome = true) ↔ sep ∈ s := by
  induction s with
  | nil => simp [breakAt]
  | cons c cs ih =>
    by_cases hc : c = sep
    · subst hc; simp [breakAt]
    · have hcs : ¬ sep = c := fun h => hc h.symm
      simp [breakAt, hc, ih, List.mem_cons, hcs]

/-- `breakAt` splits at the first separator occurrence. -/
theorem breakAt_append {sep : Char} {a : List Char} (b : List Char)
    (h : sep ∉ a) : breakAt sep (a ++ sep :: b) = (a, some b) := by
  induction a with
  | nil => simp [breakAt]
  | cons c cs ih =>
    simp only [List.mem_cons, not_or] at h
    have hc : ¬ c = sep := fun hc => h.1 hc.symm
    simp [breakAt, hc, ih h.2]

/-- A cons on the inherited list with a well-formed head does not change
whether some entry lacks `"="`. -/
theorem exists_bad_cons (i : String) (rest : List String)
    (hm : '=' ∈ i.data) :
    (∃ kv ∈ i :: rest, '=' ∉ kv.data) ↔ ∃ kv ∈ rest, '=' ∉ kv.data := by
  constructor
  · rintro ⟨kv, hkv, hp⟩
    rcases List.mem_cons.mp hkv with rfl | hkv'
    · exact absurd hm hp
    · exact ⟨kv, hkv', hp⟩
  · rintro ⟨kv, hkv, hp⟩
    exact ⟨kv, List.mem_cons_of_mem _ hkv, hp⟩

/-- `inheritLoop` panics exactly when some inherited entry lacks `"="`. -/
theorem inheritLoop_none_iff (seen : List String) (inh : List String) :
    inheritLoop seen inh = none ↔ ∃ kv ∈ inh, '=' ∉ kv.data := by
  induction inh generalizing seen with
  | nil => simp [inheritLoop]
  | cons i rest ih =>
    by_cases hm : '=' ∈ i.data
    · have hs : ((breakAt '=' i.data).2).isSome = true := breakAt_isSome_iff.mpr hm
      rcases hb : breakAt '=' i.data with ⟨before, _ | a⟩
      · rw [hb] at hs; simp at hs
      · by_cases hseen : String.mk before ∈ seen
        · simp only [inheritLoop, splitN2, hb, if_pos hseen]
          rw [ih seen, exists_bad_cons i rest hm]
        · have hbind : inheritLoop seen (i :: rest) = none ↔
              inheritLoop (String.mk before :: seen) rest = none := by
            simp only [inheritLoop, splitN2, hb, if_neg hseen]
            cases inheritLoop (String.mk before :: seen) rest <;> simp
          rw [hbind, ih, exists_bad_cons i rest hm]
    · have hnone : inheritLoop seen (i :: rest) = none := by
        simp [inheritLoop, splitN2, breakAt_no_sep hm]
      exact iff_of_true hnone ⟨i, by simp, hm⟩

/-- C9: the environment-splitting helpers are partial —
`allowed_env_inherit` panics (`none`) exactly on entries without `"="`,
it is total (`isSome`) on entries with `"="`, and `inherit_environment`
panics exactly when some inherited entry lacks `"="`. -/
theorem C9_env_split_partiality :
    (∀ kv : String, '=' ∉ kv.data → allowed_env_inherit kv = none) ∧
    (∀ kv : String, '=' ∈ kv.data → (allowed_env_inherit kv).isSome = true) ∧
    (∀ (env : Env) (inherited : List String),
      inherit_environment env inherited = none ↔
        ∃ kv ∈ inherited, '=' ∉ kv.data) := by
  refine ⟨fun kv h => ?_, fun kv h => ?_, fun env inherited => ?_⟩
  · simp [allowed_env_inherit, splitN2, breakAt_no_sep h]
  · have hs : ((breakAt '=' kv.data).2).isSome = true := breakAt_isSome_iff.mpr h
    rcases hb : breakAt '=' kv.data with ⟨before, _ | a⟩
    · rw [hb] at hs; simp at hs
    · simp [allowed_env_inherit, splitN2, hb]
  · have hmap : inherit_environment env inherited = none ↔
        inheritLoop (paramsLoop [] env).2 inherited = none := by
      simp only [inherit_environment]
      cases inheritLoop (paramsLoop [] env).2 inherited <;> simp
    rw [hmap, inheritLoop_none_iff]

/-- Witness for C9 at concrete entries with and without `"="`. -/
theorem C9_env_split_partiality_witness :
    allowed_env_inherit "NOEQUALS" = none ∧
    (allowed_env_inherit "PATH=/bin").isSome = true ∧
    inherit_environment [] ["BAD"] = none :=
  ⟨C9_env_split_partiality.1 "NOEQUALS" (by decide),
   C9_env_split_partiality.2.1 "PATH=/bin" (by decide),
   (C9_env_split_partiality.2.2 [] ["BAD"]).mpr ⟨"BAD", by simp, by decide⟩⟩

/-- A key whose stored value (defaulting to `""`) is non-empty is present. -/
theorem getD_ne_isSome {env : Env} {k : String} (h : Env.getD env k ≠ "") :
    (Env.get? env k).isSome = true := by
  cases hg : Env.get? env k
  · exact absurd (by simp [Env.getD, hg]) h
  · rfl

/-- C4: with `SCRIPT_FILENAME` absent or empty, an absent or empty
`DOCUMENT_ROOT` fails with the missing-document-root error, an absent or
empty `SCRIPT_NAME` (with `DOCUMENT_ROOT` non-empty) fails with the
missing-script-name error — in both cases before any process is built —
and with both non-empty the candidate script path is
`join(DOCUMENT_ROOT, SCRIPT_NAME)`. -/
theorem C4_missing_params (fs : FS) (env : Env) (inherited : List String)
    (hsf : Env.getD env "SCRIPT_FILENAME" = "") :
    (Env.getD env "DOCUMENT_ROOT" = "" →
      prepareCGICommand fs env inherited = some (.error .missingDocRoot)) ∧
    (Env.getD env "DOCUMENT_ROOT" ≠ "" → Env.getD env "SCRIPT_NAME" = "" →
      prepareCGICommand fs env inherited = some (.error .missingScriptName)) ∧
    (Env.getD env "DOCUMENT_ROOT" ≠ "" → Env.getD env "SCRIPT_NAME" ≠ "" →
      resolveScriptPath env =
        .ok (join2 (Env.getD env "DOCUMENT_ROOT") (Env.getD env "SCRIPT_NAME"),
          Env.getD env "DOCUMENT_ROOT")) := by
  refine ⟨fun hd => ?_, fun hd hn => ?_, fun hd hn => ?_⟩
  · simp [prepareCGICommand, resolveScriptPath, hsf, hd]
  · have hok := getD_ne_isSome hd
    simp [prepareCGICommand, resolveScriptPath, hsf, hd, hn, hok]
  · have hok := getD_ne_isSome hd
    have hokN := getD_ne_isSome hn
    simp [resolveScriptPath, hsf, hd, hn, hok, hokN]

/-- Witness for C4 at concrete parameter maps. -/
theorem C4_missing_params_witness :
    prepareCGICommand fsAllRegular [] [] = some (.error .missingDocRoot) ∧
    prepareCGICommand fsAllRegular [("DOCUMENT_ROOT", "/r")] [] =
      some (.error .missingScriptName) ∧
    resolveScriptPath [("DOCUMENT_ROOT", "/r"), ("SCRIPT_NAME", "x.sh")] =
      .ok ("/r/x.sh", "/r") := by
  refine ⟨(C4_missing_params fsAllRegular [] [] rfl).1 rfl,
    (C4_missing_params fsAllRegular [("DOCUMENT_ROOT", "/r")] [] rfl).2.1
      (by decide) rfl, ?_⟩
  have h := (C4_missing_params fsAllRegular
    [("DOCUMENT_ROOT", "/r"), ("SCRIPT_NAME", "x.sh")] [] rfl).2.2
    (by decide) (by decide)
  exact h.trans (by rfl)

/-- C5: once the absoluteness and containment checks pass,
`validateScript` is exactly the lstat-based file inspection of the cleaned
path, with its distinct errors in order: absent entry, symbolic link,
non-regular file, no execute bit; a regular file with an execute bit
passes. -/
theorem C5_file_checks (fs : FS) (script docRoot : String)
    (habs : checkAbs script = .ok ())
    (hcont : checkContainment (clean script) docRoot = .ok ()) :
    validateScript fs script docRoot = checkFile (fs.lstat (clean script)) ∧
    (fs.lstat (clean script) = .notExist →
      validateScript fs script docRoot = .error .notFound) ∧
    (∀ info, fs.lstat (clean script) = .found info → info.ftype = .symlink →
      validateScript fs script docRoot = .error .symlinkUnsupported) ∧
    (∀ info, fs.lstat (clean script) = .found info → info.ftype ≠ .symlink →
      info.ftype ≠ .regular →
      validateScript fs script docRoot = .error .notRegularFile) ∧
    (∀ info, fs.lstat (clean script) = .found info → info.ftype = .regular →
      info.perm &&& 0o111 = 0 →
      validateScript fs script docRoot = .error .notExecutable) ∧
    (∀ info, fs.lstat (clean script) = .found info → info.ftype = .regular →
      info.perm &&& 0o111 ≠ 0 →
      validateScript fs script docRoot = .ok ()) := by
  have hbase : validateScript fs script docRoot =
      checkFile (fs.lstat (clean script)) := by
    simp only [validateScript, habs, hcont]
    rfl
  refine ⟨hbase, fun hf => ?_, fun info hf hsym => ?_,
    fun info hf hns hnr => ?_, fun info hf hreg hz => ?_,
    fun info hf hreg hz => ?_⟩
  · rw [hbase, hf]; simp [checkFile]
  · rw [hbase, hf]; simp [checkFile, hsym]
  · rw [hbase, hf]; simp [checkFile, hns, hnr]
  · rw [hbase, hf]; simp [checkFile, hreg, hz]
  · rw [hbase, hf]; simp [checkFile, hreg, hz]

/-- Witness for C5: a regular executable file under the root passes. -/
theorem C5_file_checks_witness :
    validateScript fsAllRegular "/r/x.sh" "/r" = .ok () :=
  (C5_file_checks fsAllRegular "/r/x.sh" "/r" rfl rfl).2.2.2.2.2
    ⟨.regular, 0o755⟩ rfl rfl (by decide)

/-- Unfolding `scanHeaders` on the empty stream. -/
theorem scanHeaders_nil (cur : List Char) : scanHeaders [] cur = none := rfl

/-- Unfolding `scanHeaders` on one character: a newline completes the
accumulated line, anything else is accumulated. -/
theorem scanHeaders_cons (c : Char) (rest cur : List Char) :
    scanHeaders (c :: rest) cur =
      if c = '\n' then lineStep (trimRightCRLF cur.reverse) rest
      else scanHeaders rest (c :: cur) := rfl

/-- `scanHeaders` consumes one full line at a time. -/
theorem scanHeaders_line (line rest cur : List Char) (hnl : '\n' ∉ line) :
    scanHeaders (line ++ '\n' :: rest) cur =
      lineStep (trimRightCRLF (cur.reverse ++ line)) rest := by
  revert hnl
  induction line generalizing cur with
  | nil =>
    intro _
    rw [List.nil_append, scanHeaders_cons]
    simp
  | cons a line' ih =>
    intro hnl
    simp only [List.mem_cons, not_or] at hnl
    have ha : ¬ a = '\n' := fun h => hnl.1 h.symm
    rw [List.cons_append, scanHeaders_cons, if_neg ha, ih (a :: cur) hnl.2]
    simp [List.append_assoc]

/-- A stream with no newline at all makes the header scan fail. -/
theorem scanHeaders_no_newline {s : List Char} (h : '\n' ∉ s)
    (cur : List Char) : scanHeaders s cur = none := by
  revert h
  induction s generalizing cur with
  | nil => intro _; rfl
  | cons c rest ih =>
    intro h
    simp only [List.mem_cons, not_or] at h
    have hc : ¬ c = '\n' := fun hh => h.1 hh.symm
    rw [scanHeaders_cons, if_neg hc]
    exact ih (c :: cur) h.2

/-- Characters of a right-trimmed line come from the line. -/
theorem mem_trimRightCRLF {x : Char} {l : List Char}
    (hx : x ∈ trimRightCRLF l) : x ∈ l := by
  unfold trimRightCRLF at hx
  rw [List.mem_reverse] at hx
  rw [← List.mem_reverse]
  exact (List.dropWhile_sublist _).mem hx

/-- A line without `':'` parses to no header. -/
theorem headerOfLine_none {l : List Char} (h : ':' ∉ l) :
    headerOfLine l = none := by
  simp [headerOfLine, splitN2, breakAt_no_sep h]

/-- C10: a non-empty header line without a colon is silently discarded —
scanning the stream from it gives exactly the scan of the remaining
stream: the line lands neither in the headers nor in the body, and it
causes no failure. -/
theorem C10_colonless_line_dropped (line rest : List Char)
    (hnl : '\n' ∉ line) (hnc : ':' ∉ line)
    (hne : trimRightCRLF line ≠ []) :
    scanHeaders (line ++ '\n' :: rest) [] = scanHeaders rest [] := by
  rw [scanHeaders_line line rest [] hnl]
  simp only [List.reverse_nil, List.nil_append]
  rw [lineStep, if_neg hne,
    headerOfLine_none (fun hc => hnc (mem_trimRightCRLF hc))]

/-- Witness for C10 at the concrete line `"garbage"`. -/
theorem C10_colonless_line_dropped_witness :
    scanHeaders ("garbage\n\nBody".data) [] = some ([], "Body".data) := by
  have h := C10_colonless_line_dropped "garbage".data ('\n' :: "Body".data)
    (by decide) (by decide) (by decide)
  exact h.trans (by rfl)

/-- C3: the response translator on the concrete example
`"Content-Type: text/plain\r\n\r\nHello"` yields exactly the header
`Content-Type = text/plain` with body `"Hello"`; an empty line (with
optional preceding `'\r'`) ends the headers and leaves the remaining bytes
verbatim as the body; a line splitting at its first colon into `k` and `v`
adds the whitespace-trimmed pair to the accumulating header list; a stream
that ends without any newline fails with no body; and consuming any
non-empty header line preserves failure, so a stream that ends or errors
before an emptyline is seen fails with no body. -/
theorem C3_response_translation :
    cgiTranslate "Content-Type: text/plain\r\n\r\nHello" =
      some ([("Content-Type", "text/plain")], "Hello") ∧
    (∀ rest, scanHeaders ('\n' :: rest) [] = some ([], rest)) ∧
    (∀ rest, scanHeaders ('\r' :: '\n' :: rest) [] = some ([], rest)) ∧
    (∀ line rest k v, '\n' ∉ line →
      breakAt ':' (trimRightCRLF line) = (k, some v) →
      trimRightCRLF line ≠ [] →
      scanHeaders (line ++ '\n' :: rest) [] =
        (scanHeaders rest []).map (fun p =>
          ((String.mk (trimSpace k), String.mk (trimSpace v)) :: p.1, p.2))) ∧
    (∀ s : List Char, '\n' ∉ s → scanHeaders s [] = none) ∧
    (∀ line rest, '\n' ∉ line → trimRightCRLF line ≠ [] →
      (scanHeaders (line ++ '\n' :: rest) [] = none ↔
        scanHeaders rest [] = none)) := by
  refine ⟨rfl, fun rest => rfl, fun rest => rfl,
    fun line rest k v hnl hb hne => ?_,
    fun s h => scanHeaders_no_newline h [],
    fun line rest hnl hne => ?_⟩
  · rw [scanHeaders_line line rest [] hnl]
    simp only [List.reverse_nil, List.nil_append]
    rw [lineStep, if_neg hne]
    have hh : headerOfLine (trimRightCRLF line) =
        some (String.mk (trimSpace k), String.mk (trimSpace v)) := by
      simp [headerOfLine, splitN2, hb]
    rw [hh]
  · rw [scanHeaders_line line rest [] hnl]
    simp only [List.reverse_nil, List.nil_append]
    rw [lineStep, if_neg hne]
    cases hh : headerOfLine (trimRightCRLF line) with
    | none => exact Iff.rfl
    | some h =>
      cases hs : scanHeaders rest [] <;> simp [hs]

/-- Witness for C3 at the concrete header line `"X: 1"`. -/
theorem C3_response_translation_witness :
    scanHeaders ("X: 1\n\nB".data) [] = some ([("X", "1")], "B".data) := by
  have h := C3_response_translation.2.2.2.1 "X: 1".data ('\n' :: "B".data)
    "X".data " 1".data (by decide) (by decide) (by decide)
  exact h.trans (by rfl)

/-- The characters of `k ++ "=" ++ v`. -/
theorem entry_data (k v : String) :
    (k ++ "=" ++ v).data = k.data ++ '=' :: v.data := by
  simp [String.data_append]

/-- The parsed name of a request-parameter entry whose key has no `'='`. -/
theorem keyOf_entry {k : String} (v : String) (h : '=' ∉ k.data) :
    keyOf (k ++ "=" ++ v) = k := by
  unfold keyOf
  rw [entry_data, splitN2, breakAt_append v.data h]

/-- The parsed name of an inherited entry, from its split. -/
theorem keyOf_of_breakAt {e : String} {before a : List Char}
    (hb : breakAt '=' e.data = (before, some a)) :
    keyOf e = String.mk before := by
  unfold keyOf
  rw [splitN2, hb]

/-- Every entry the first `inherit_environment` loop emits is a request
parameter rendered as `k ++ "=" ++ v`. -/
theorem paramsLoop_mem {env : Env} {seen : List String} {x : String}
    (hx : x ∈ (paramsLoop seen env).1) :
    ∃ p, p ∈ env ∧ x = p.1 ++ "=" ++ p.2 := by
  induction env generalizing seen with
  | nil => simp [paramsLoop] at hx
  | cons p rest ih =>
    obtain ⟨k, v⟩ := p
    by_cases hk : k ∈ seen
    · simp only [paramsLoop, if_pos hk] at hx
      obtain ⟨q, hq, he⟩ := ih hx
      exact ⟨q, List.mem_cons_of_mem _ hq, he⟩
    · simp only [paramsLoop, if_neg hk, List.mem_cons] at hx
      rcases hx with rfl | hx
      · exact ⟨(k, v), List.mem_cons_self _ _, rfl⟩
      · obtain ⟨q, hq, he⟩ := ih hx
        exact ⟨q, List.mem_cons_of_mem _ hq, he⟩

/-- With unique parameter keys, every request parameter whose key is not
yet seen is emitted by the first loop. -/
theorem paramsLoop_adds {env : Env} {seen : List String} {k v : String}
    (hnd : (env.map Prod.fst).Nodup) (hmem : (k, v) ∈ env)
    (hs : k ∉ seen) : (k ++ "=" ++ v) ∈ (paramsLoop seen env).1 := by
  induction env generalizing seen with
  | nil => simp at hmem
  | cons p rest ih =>
    obtain ⟨k', v'⟩ := p
    simp only [List.map_cons, List.nodup_cons] at hnd
    rcases List.mem_cons.mp hmem with he | hmem'
    · obtain ⟨h1, h2⟩ := Prod.ext_iff.mp he
      simp only at h1 h2
      subst h1; subst h2
      simp [paramsLoop, if_neg hs]
    · by_cases hk' : k' ∈ seen
      · simp only [paramsLoop, if_pos hk']
        exact ih hnd.2 hmem' hs
      · simp only [paramsLoop, if_neg hk', List.mem_cons]
        right
        apply ih hnd.2 hmem'
        intro hmem2
        rcases List.mem_cons.mp hmem2 with rfl | hseen2
        · exact hnd.1 (List.mem_map.mpr ⟨(k, v), hmem', rfl⟩)
        · exact hs hseen2

/-- The seen set after the first loop is exactly the emitted names (in
reverse) on top of the initial seen set. -/
theorem paramsLoop_seen : ∀ (env : Env) (seen : List String),
    (∀ p ∈ env, '=' ∉ (Prod.fst p : String).data) →
    (paramsLoop seen env).2 =
      ((paramsLoop seen env).1.map keyOf).reverse ++ seen := by
  intro env
  induction env with
  | nil => intro seen _; simp [paramsLoop]
  | cons p rest ih =>
    intro seen hkeq
    obtain ⟨k, v⟩ := p
    have hk : '=' ∉ k.data := hkeq (k, v) (List.mem_cons_self _ _)
    have hrest : ∀ p ∈ rest, '=' ∉ (Prod.fst p : String).data :=
      fun q hq => hkeq q (List.mem_cons_of_mem _ hq)
    by_cases hks : k ∈ seen
    · simp only [paramsLoop, if_pos hks]
      exact ih seen hrest
    · simp only [paramsLoop, if_neg hks]
      rw [ih (k :: seen) hrest, List.map_cons, keyOf_entry v hk,
        List.reverse_cons]
      simp [List.append_assoc]

/-- The names emitted by the first loop are distinct and outside the
initial seen set. -/
theorem paramsLoop_nodup : ∀ (env : Env) (seen : List String),
    (env.map Prod.fst).Nodup →
    (∀ p ∈ env, '=' ∉ (Prod.fst p : String).data) →
    ((paramsLoop seen env).1.map keyOf).Nodup ∧
      ∀ x ∈ (paramsLoop seen env).1, keyOf x ∉ seen := by
  intro env
  induction env with
  | nil => intro seen _ _; simp [paramsLoop]
  | cons p rest ih =>
    intro seen hnd hkeq
    obtain ⟨k, v⟩ := p
    simp only [List.map_cons, List.nodup_cons] at hnd
    have hk : '=' ∉ k.data := hkeq (k, v) (List.mem_cons_self _ _)
    have hrest : ∀ p ∈ rest, '=' ∉ (Prod.fst p : String).data :=
      fun q hq => hkeq q (List.mem_cons_of_mem _ hq)
    by_cases hks : k ∈ seen
    · simp only [paramsLoop, if_pos hks]
      exact ih seen hnd.2 hrest
    · simp only [paramsLoop, if_neg hks]
      obtain ⟨ihn, ihs⟩ := ih (k :: seen) hnd.2 hrest
      constructor
      · rw [List.map_cons, keyOf_entry v hk, List.nodup_cons]
        refine ⟨fun hmem => ?_, ihn⟩
        obtain ⟨x, hx, hkx⟩ := List.mem_map.mp hmem
        exact ihs x hx (by rw [hkx]; exact List.mem_cons_self _ _)
      · intro x hx
        rcases List.mem_cons.mp hx with rfl | hx'
        · rw [keyOf_entry v hk]; exact hks
        · exact fun hxs => ihs x hx' (List.mem_cons_of_mem _ hxs)

/-- Every entry the second loop keeps comes from the inherited list and
carries a name that was not seen. -/
theorem inheritLoop_mem : ∀ (inh seen r : List String),
    inheritLoop seen inh = some r →
    ∀ x ∈ r, x ∈ inh ∧ keyOf x ∉ seen := by
  intro inh
  induction inh with
  | nil =>
    intro seen r h x hx
    simp only [inheritLoop, Option.some.injEq] at h
    subst h; simp at hx
  | cons i rest ih =>
    intro seen r h x hx
    rcases hb : breakAt '=' i.data with ⟨before, _ | a⟩
    · simp only [inheritLoop, splitN2, hb] at h
      exact absurd h (by simp)
    · simp only [inheritLoop, splitN2, hb] at h
      by_cases hks : String.mk before ∈ seen
      · rw [if_pos hks] at h
        obtain ⟨hmem, hns⟩ := ih seen r h x hx
        exact ⟨List.mem_cons_of_mem _ hmem, hns⟩
      · rw [if_neg hks] at h
        cases hr : inheritLoop (String.mk before :: seen) rest with
        | none => rw [hr] at h; simp at h
        | some r' =>
          rw [hr] at h
          simp at h
          subst h
          rcases List.mem_cons.mp hx with rfl | hx'
          · exact ⟨List.mem_cons_self _ _,
              by rw [keyOf_of_breakAt hb]; exact hks⟩
          · obtain ⟨hmem, hns⟩ := ih _ r' hr x hx'
            exact ⟨List.mem_cons_of_mem _ hmem,
              fun hseen => hns (List.mem_cons_of_mem _ hseen)⟩

/-- The names the second loop keeps are distinct. -/
theorem inheritLoop_nodup : ∀ (inh seen r : List String),
    inheritLoop seen inh = some r → (r.map keyOf).Nodup := by
  intro inh
  induction inh with
  | nil =>
    intro seen r h
    simp only [inheritLoop, Option.some.injEq] at h
    subst h; simp
  | cons i rest ih =>
    intro seen r h
    rcases hb : breakAt '=' i.data with ⟨before, _ | a⟩
    · simp only [inheritLoop, splitN2, hb] at h
      exact absurd h (by simp)
    · simp only [inheritLoop, splitN2, hb] at h
      by_cases hks : String.mk before ∈ seen
      · rw [if_pos hks] at h
        exact ih seen r h
      · rw [if_neg hks] at h
        cases hr : inheritLoop (String.mk before :: seen) rest with
        | none => rw [hr] at h; simp at h
        | some r' =>
          rw [hr] at h
          simp at h
          subst h
          rw [List.map_cons, List.nodup_cons]
          refine ⟨fun hmem => ?_, ih _ r' hr⟩
          obtain ⟨x, hx, hkx⟩ := List.mem_map.mp hmem
          apply (inheritLoop_mem rest _ r' hr x hx).2
          rw [hkx, keyOf_of_breakAt hb]
          exact List.mem_cons_self _ _

/-- Every entry `setupEnv` keeps is a host entry that the filter allows. -/
theorem setupEnv_mem : ∀ (host inh : List String),
    setupEnv host = some inh →
    ∀ e ∈ inh, e ∈ host ∧ allowed_env_inherit e = some true := by
  intro host
  induction host with
  | nil =>
    intro inh h e he
    simp only [setupEnv, Option.some.injEq] at h
    subst h; simp at he
  | cons x rest ih =>
    intro inh h e he
    cases ha : allowed_env_inherit x with
    | none => simp [setupEnv, ha] at h
    | some a =>
      simp only [setupEnv, ha] at h
      cases hr : setupEnv rest with
      | none => rw [hr] at h; simp at h
      | some r =>
        rw [hr] at h
        simp at h
        subst h
        cases a with
        | true =>
          simp only [if_pos] at he
          rcases List.mem_cons.mp (by simpa using he) with rfl | he'
          · exact ⟨List.mem_cons_self _ _, ha⟩
          · obtain ⟨hm, hal⟩ := ih r hr e he'
            exact ⟨List.mem_cons_of_mem _ hm, hal⟩
        | false =>
          obtain ⟨hm, hal⟩ := ih r hr e (by simpa using he)
          exact ⟨List.mem_cons_of_mem _ hm, hal⟩

/-- An entry that passes the filter has a name that is neither
`"HTTP"`-prefixed nor deny-listed. -/
theorem allowed_true_charac {e : String}
    (h : allowed_env_inherit e = some true) :
    hasPfx "HTTP" (keyOf e) = false ∧ keyOf e ∉ forbidden_env_inherits := by
  rcases hb : breakAt '=' e.data with ⟨before, _ | a⟩
  · simp only [allowed_env_inherit, splitN2, hb] at h
    exact absurd h (by simp)
  · simp only [allowed_env_inherit, splitN2, hb, Option.some.injEq] at h
    rw [keyOf_of_breakAt hb]
    by_cases h1 : hasPfx "HTTP" (String.mk before) = true
    · rw [if_pos h1] at h; simp at h
    · rw [if_neg h1] at h
      by_cases h2 : forbidden_env_inherits.contains (String.mk before) = true
      · rw [if_pos h2] at h; simp at h
      · rw [if_neg h2] at h
        refine ⟨Bool.eq_false_iff.mpr h1, fun hmem => h2 ?_⟩
        simpa using hmem

/-- C2: the subprocess environment never contains an inherited host
variable whose name is deny-listed or `"HTTP"`-prefixed (every final entry
is either a rendered request parameter or a host entry whose name passes
the filter), every request parameter lands in the final environment (so a
request parameter sharing a name with an inherited variable overrides it),
and no name occurs twice in the final environment. -/
theorem C2_env_inheritance (hostEnv : List String) (env : Env)
    (inh final : List String)
    (hkeys : (env.map Prod.fst).Nodup)
    (hkeq : ∀ p ∈ env, '=' ∉ (Prod.fst p : String).data)
    (hs : setupEnv hostEnv = some inh)
    (hf : inherit_environment env inh = some final) :
    (∀ kv ∈ final,
      kv ∈ env.map (fun p => p.1 ++ "=" ++ p.2) ∨
      (kv ∈ hostEnv ∧ hasPfx "HTTP" (keyOf kv) = false ∧
        keyOf kv ∉ forbidden_env_inherits)) ∧
    (∀ p ∈ env, (p.1 ++ "=" ++ p.2) ∈ final) ∧
    (final.map keyOf).Nodup := by
  have hmap : ∃ r, inheritLoop (paramsLoop [] env).2 inh = some r ∧
      final = (paramsLoop [] env).1 ++ r := by
    unfold inherit_environment at hf
    cases hr : inheritLoop (paramsLoop [] env).2 inh with
    | none => rw [hr] at hf; simp at hf
    | some r =>
      rw [hr] at hf
      simp at hf
      exact ⟨r, rfl, hf.symm⟩
  obtain ⟨r, hr, hfin⟩ := hmap
  subst hfin
  refine ⟨?_, ?_, ?_⟩
  · intro kv hkv
    rcases List.mem_append.mp hkv with hkv | hkv
    · left
      obtain ⟨p, hp, he⟩ := paramsLoop_mem hkv
      exact List.mem_map.mpr ⟨p, hp, he.symm⟩
    · right
      have h8 := inheritLoop_mem inh _ r hr kv hkv
      obtain ⟨hhost, hall⟩ := setupEnv_mem hostEnv inh hs kv h8.1
      obtain ⟨hp, hforb⟩ := allowed_true_charac hall
      exact ⟨hhost, hp, hforb⟩
  · intro p hp
    apply List.mem_append_left
    have : (p.1, p.2) ∈ env := by simpa using hp
    exact paramsLoop_adds hkeys this (by simp)
  · rw [List.map_append]
    refine List.Nodup.append ?_ ?_ ?_
    · exact (paramsLoop_nodup env [] hkeys hkeq).1
    · exact inheritLoop_nodup inh _ r hr
    · intro x hx1 hx2
      obtain ⟨e1, he1, hk1⟩ := List.mem_map.mp hx1
      obtain ⟨e2, he2, hk2⟩ := List.mem_map.mp hx2
      have hseen : keyOf e2 ∉ (paramsLoop [] env).2 :=
        (inheritLoop_mem inh _ r hr e2 he2).2
      apply hseen
      rw [paramsLoop_seen env [] hkeq]
      simp only [List.append_nil, List.mem_reverse]
      rw [hk2, ← hk1]
      exact List.mem_map.mpr ⟨e1, he1, rfl⟩

/-- Witness for C2 at a concrete host environment and parameter map. -/
theorem C2_env_inheritance_witness :
    ("PATH" ++ "=" ++ "/custom") ∈
      ["PATH=/custom", "REQUEST_METHOD=GET", "HOME=/root"] ∧
    ((["PATH=/custom", "REQUEST_METHOD=GET", "HOME=/root"] :
        List String).map keyOf).Nodup := by
  have h := C2_env_inheritance
    ["HTTP_FOO=bar", "REMOTE_ADDR=1.2.3.4", "PATH=/bin", "HOME=/root"]
    [("PATH", "/custom"), ("REQUEST_METHOD", "GET")]
    ["PATH=/bin", "HOME=/root"]
    ["PATH=/custom", "REQUEST_METHOD=GET", "HOME=/root"]
    (by decide) (by decide) rfl rfl
  exact ⟨h.2.1 ("PATH", "/custom") (by decide), h.2.2⟩

/-- `splitSlash` never returns the empty list of chunks. -/
theorem splitSlash_ne_nil (cs : List Char) : splitSlash cs ≠ [] := by
  cases cs with
  | nil => simp [splitSlash]
  | cons c rest =>
    cases hsp : splitSlash rest with
    | nil => simp [splitSlash, hsp]
    | cons g gs =>
      simp only [splitSlash, hsp]
      by_cases h : c = '/' <;> simp [h]

/-- Chunks produced by `splitSlash` contain no separator. -/
theorem splitSlash_noslash : ∀ (cs : List Char), ∀ g ∈ splitSlash cs, '/' ∉ g := by
  intro cs
  induction cs with
  | nil =>
    intro g hg
    simp [splitSlash] at hg
    subst hg; simp
  | cons c rest ih =>
    intro g hg
    cases hsp : splitSlash rest with
    | nil => exact absurd hsp (splitSlash_ne_nil rest)
    | cons g0 gs =>
      simp only [splitSlash, hsp] at hg
      by_cases hc : c = '/'
      · rw [if_pos hc] at hg
        rcases List.mem_cons.mp hg with rfl | hg'
        · simp
        · exact ih g (hsp ▸ hg')
      · rw [if_neg hc] at hg
        rcases List.mem_cons.mp hg with rfl | hg'
        · intro hmem
          rcases List.mem_cons.mp hmem with he | hmem'
          · exact hc he.symm
          · exact ih g0 (hsp ▸ List.mem_cons_self _ _) hmem'
        · exact ih g (hsp ▸ List.mem_cons_of_mem _ hg')

/-- `splitSlash` after a leading separator. -/
theorem splitSlash_slash_cons (cs : List Char) :
    splitSlash ('/' :: cs) = [] :: splitSlash cs := by
  cases hsp : splitSlash cs with
  | nil => exact absurd hsp (splitSlash_ne_nil cs)
  | cons g gs => simp [splitSlash, hsp]

/-- `splitSlash` detaches a separator-free first chunk. -/
theorem splitSlash_sep_append : ∀ (a l : List Char), '/' ∉ a →
    splitSlash (a ++ '/' :: l) = a :: splitSlash l := by
  intro a
  induction a with
  | nil => intro l _; simpa using splitSlash_slash_cons l
  | cons c a' ih =>
    intro l h
    simp only [List.mem_cons, not_or] at h
    have hc : ¬ c = '/' := fun hh => h.1 hh.symm
    have ih' := ih l h.2
    rw [List.cons_append]
    cases hsp : splitSlash (a' ++ '/' :: l) with
    | nil => exact absurd hsp (splitSlash_ne_nil _)
    | cons g gs =>
      rw [hsp] at ih'
      injection ih' with h1 h2
      simp [splitSlash, hsp, hc, h1, h2]

/-- `splitSlash` leaves a separator-free list whole. -/
theorem splitSlash_whole : ∀ (l : List Char), '/' ∉ l → splitSlash l = [l] := by
  intro l
  induction l with
  | nil => intro _; rfl
  | cons c rest ih =>
    intro h
    simp only [List.mem_cons, not_or] at h
    have hc : ¬ c = '/' := fun hh => h.1 hh.symm
    simp [splitSlash, ih h.2, hc]

/-- `joinSlash` on a cons with non-empty tail. -/
theorem joinSlash_cons (c : List Char) {cs : List (List Char)} (h : cs ≠ []) :
    joinSlash (c :: cs) = c ++ '/' :: joinSlash cs := by
  cases cs with
  | nil => exact absurd rfl h
  | cons d ds => rfl

/-- `joinSlash` distributes over append of non-empty chunk lists. -/
theorem joinSlash_append : ∀ (xs ys : List (List Char)), xs ≠ [] → ys ≠ [] →
    joinSlash (xs ++ ys) = joinSlash xs ++ '/' :: joinSlash ys := by
  intro xs
  induction xs with
  | nil => intro ys hx _; exact absurd rfl hx
  | cons x xs' ih =>
    intro ys _ hy
    cases xs' with
    | nil => exact joinSlash_cons x hy
    | cons z zs =>
      have h1 : (z :: zs : List (List Char)) ≠ [] := by simp
      have h2 : (z :: zs) ++ ys ≠ [] := by simp
      rw [List.cons_append, joinSlash_cons x h2, ih ys h1 hy,
        joinSlash_cons x h1]
      simp

/-- A join of non-empty chunks is non-empty. -/
theorem joinSlash_ne_nil : ∀ (cs : List (List Char)), cs ≠ [] →
    (∀ x ∈ cs, x ≠ []) → joinSlash cs ≠ [] := by
  intro cs
  cases cs with
  | nil => intro h _; exact absurd rfl h
  | cons c cs' =>
    intro _ hx
    cases cs' with
    | nil => exact hx c (by simp)
    | cons d ds => simp [joinSlash]

/-- Splitting a join of non-empty separator-free chunks (and dropping
empty chunks) recovers the chunks. -/
theorem splitSlash_join_round : ∀ (cs : List (List Char)),
    (∀ c ∈ cs, c ≠ [] ∧ '/' ∉ c) →
    (splitSlash (joinSlash cs)).filter (fun c => c ≠ []) = cs := by
  intro cs
  induction cs with
  | nil => intro _; rfl
  | cons c cs' ih =>
    intro h
    have hc := h c (by simp)
    cases cs' with
    | nil =>
      rw [show joinSlash [c] = c from rfl, splitSlash_whole c hc.2]
      simp [hc.1]
    | cons d ds =>
      have hne : (d :: ds : List (List Char)) ≠ [] := by simp
      rw [joinSlash_cons c hne, splitSlash_sep_append c (joinSlash (d :: ds)) hc.2]
      simp only [List.filter_cons]
      rw [ih (fun x hx => h x (List.mem_cons_of_mem _ hx))]
      simp [hc.1]

/-- Elements of the `".."`-resolution step come from the stack or are
`".."`. -/
theorem dotdotStack_mem : ∀ (out : List (List Char)) (abs : Bool),
    ∀ x ∈ dotdotStack abs out, x ∈ out ∨ x = ['.', '.'] := by
  intro out abs x hx
  cases out with
  | nil =>
    cases abs with
    | true => simp [dotdotStack] at hx
    | false =>
      simp [dotdotStack] at hx
      exact Or.inr hx
  | cons top rest =>
    by_cases h : top = ['.', '.']
    · simp only [dotdotStack, if_pos h] at hx
      rcases List.mem_cons.mp hx with rfl | hx'
      · exact Or.inr rfl
      · exact Or.inl hx'
    · simp only [dotdotStack, if_neg h] at hx
      exact Or.inl (List.mem_cons_of_mem _ hx)

/-- On an absolute path the `".."`-resolution step keeps the stack free of
`"."` and `".."`. -/
theorem dotdotStack_no_special : ∀ (out : List (List Char)),
    (∀ y ∈ out, y ≠ ['.'] ∧ y ≠ ['.', '.']) →
    ∀ y ∈ dotdotStack true out, y ≠ ['.'] ∧ y ≠ ['.', '.'] := by
  intro out hout y hy
  cases out with
  | nil => simp [dotdotStack] at hy
  | cons top rest =>
    simp only [dotdotStack, if_neg (hout top (by simp)).2] at hy
    exact hout y (List.mem_cons_of_mem _ hy)

/-- Elements of `cleanLoop` output come from the stack, the input, or are
`".."`. -/
theorem cleanLoop_mem : ∀ (cs out : List (List Char)) (abs : Bool),
    ∀ x ∈ cleanLoop abs out cs, x ∈ out ∨ x ∈ cs ∨ x = ['.', '.'] := by
  intro cs
  induction cs with
  | nil =>
    intro out abs x hx
    left; simpa [cleanLoop] using hx
  | cons c cs' ih =>
    intro out abs x hx
    by_cases h1 : c = ['.']
    · simp only [cleanLoop, if_pos h1] at hx
      rcases ih out abs x hx with h | h | h
      · exact Or.inl h
      · exact Or.inr (Or.inl (List.mem_cons_of_mem _ h))
      · exact Or.inr (Or.inr h)
    · by_cases h2 : c = ['.', '.']
      · simp only [cleanLoop, if_neg h1, if_pos h2] at hx
        rcases ih (dotdotStack abs out) abs x hx with h | h | h
        · rcases dotdotStack_mem out abs x h with h' | h'
          · exact Or.inl h'
          · exact Or.inr (Or.inr h')
        · exact Or.inr (Or.inl (List.mem_cons_of_mem _ h))
        · exact Or.inr (Or.inr h)
      · simp only [cleanLoop, if_neg h1, if_neg h2] at hx
        rcases ih (c :: out) abs x hx with h | h | h
        · rcases List.mem_cons.mp h with rfl | h'
          · exact Or.inr (Or.inl (List.mem_cons_self _ _))
          · exact Or.inl h'
        · exact Or.inr (Or.inl (List.mem_cons_of_mem _ h))
        · exact Or.inr (Or.inr h)

/-- On an absolute path `cleanLoop` never emits `"."` or `".."` (given a
stack without them). -/
theorem cleanLoop_abs_no_special : ∀ (cs out : List (List Char)),
    (∀ y ∈ out, y ≠ ['.'] ∧ y ≠ ['.', '.']) →
    ∀ x ∈ cleanLoop true out cs, x ≠ ['.'] ∧ x ≠ ['.', '.'] := by
  intro cs
  induction cs with
  | nil =>
    intro out hout x hx
    exact hout x (by simpa [cleanLoop] using hx)
  | cons c cs' ih =>
    intro out hout x hx
    by_cases h1 : c = ['.']
    · simp only [cleanLoop, if_pos h1] at hx
      exact ih out hout x hx
    · by_cases h2 : c = ['.', '.']
      · simp only [cleanLoop, if_neg h1, if_pos h2] at hx
        exact ih _ (dotdotStack_no_special out hout) x hx
      · simp only [cleanLoop, if_neg h1, if_neg h2] at hx
        refine ih (c :: out) ?_ x hx
        intro y hy
        rcases List.mem_cons.mp hy with rfl | hy'
        · exact ⟨h1, h2⟩
        · exact hout y hy'

/-- Inputs without `"."` / `".."` pass through `cleanLoop` unchanged. -/
theorem cleanLoop_plain : ∀ (cs out : List (List Char)) (abs : Bool),
    (∀ x ∈ cs, x ≠ ['.'] ∧ x ≠ ['.', '.']) →
    cleanLoop abs out cs = out.reverse ++ cs := by
  intro cs
  induction cs with
  | nil => intro out abs _; simp [cleanLoop]
  | cons c cs' ih =>
    intro out abs h
    have hc := h c (by simp)
    simp only [cleanLoop, if_neg hc.1, if_neg hc.2]
    rw [ih (c :: out) abs (fun x hx => h x (List.mem_cons_of_mem _ hx))]
    simp

/-- Elements of a cleaned path are non-empty and separator-free. -/
theorem cleanComps_wf (s : String) :
    ∀ x ∈ (cleanComps s).comps, x ≠ [] ∧ '/' ∉ x := by
  intro x hx
  rcases cleanLoop_mem _ _ _ x hx with h | h | h
  · simp at h
  · have hm := List.mem_filter.mp h
    exact ⟨by simpa using hm.2, splitSlash_noslash s.data x hm.1⟩
  · subst h; exact ⟨by simp, by simp⟩

/-- Elements of a cleaned absolute path are never `"."` or `".."`. -/
theorem cleanComps_abs_no_special {s : String} (h : isAbs s = true) :
    ∀ x ∈ (cleanComps s).comps, x ≠ ['.'] ∧ x ≠ ['.', '.'] := by
  intro x hx
  unfold cleanComps at hx
  rw [h] at hx
  exact cleanLoop_abs_no_special _ [] (by simp) x hx

/-- Two cleaned paths with the same flag and elements are equal. -/
theorem PathC.ext' {p q : PathC} (h1 : p.abs = q.abs)
    (h2 : p.comps = q.comps) : p = q := by
  cases p; cases q; simp_all

/-- Cleaning is idempotent on absolute paths (at the element level). -/
theorem clean_idem_abs {s : String} (h : isAbs s = true) :
    cleanComps (clean s) = cleanComps s := by
  have habs : (cleanComps s).abs = true := h
  have hrender : clean s = String.mk ('/' :: joinSlash (cleanComps s).comps) := by
    unfold clean renderPath
    rw [if_pos habs]
  rw [hrender]
  apply PathC.ext'
  · exact habs.symm ▸ rfl
  · show cleanLoop (isAbs (String.mk ('/' :: joinSlash (cleanComps s).comps))) []
        ((splitSlash ('/' :: joinSlash (cleanComps s).comps)).filter
          (fun c => c ≠ [])) = (cleanComps s).comps
    rw [show isAbs (String.mk ('/' :: joinSlash (cleanComps s).comps)) = true from rfl]
    rw [splitSlash_slash_cons]
    rw [show (([] :: splitSlash (joinSlash (cleanComps s).comps)).filter
        (fun c => c ≠ [])) =
      (splitSlash (joinSlash (cleanComps s).comps)).filter
        (fun c => c ≠ []) by simp]
    rw [splitSlash_join_round _ (cleanComps_wf s)]
    rw [cleanLoop_plain _ [] true (cleanComps_abs_no_special h)]
    simp

/-- What a successful `relWalk` means: either the base elements are a
prefix of the target elements and the result is the remaining target
elements, or the result starts with `".."`. -/
theorem relWalk_spec : ∀ (bs ts rcs : List (List Char)),
    relWalk bs ts = some rcs →
    (∃ ts', ts = bs ++ ts' ∧ rcs = ts') ∨ rcs.head? = some ['.', '.'] := by
  intro bs
  induction bs with
  | nil =>
    intro ts rcs h
    simp only [relWalk, mkRel] at h
    simp at h
    exact Or.inl ⟨ts, by simp, h.symm⟩
  | cons b bs' ih =>
    intro ts rcs h
    cases ts with
    | nil =>
      simp only [relWalk, mkRel] at h
      by_cases hb : b = ['.', '.']
      · simp [hb] at h
      · simp [hb] at h
        exact Or.inr (by rw [← h]; rfl)
    | cons t ts' =>
      by_cases hbt : b = t
      · subst hbt
        simp only [relWalk, if_pos rfl] at h
        rcases ih ts' rcs h with ⟨u, hu1, hu2⟩ | hr
        · exact Or.inl ⟨u, by rw [hu1]; rfl, hu2⟩
        · exact Or.inr hr
      · simp only [relWalk, if_neg hbt, mkRel] at h
        by_cases hb : b = ['.', '.']
        · simp [hb] at h
        · simp [hb] at h
          exact Or.inr (by rw [← h]; rfl)

/-- A relative result starting with the element `".."` renders to a
string with the prefix `".."`. -/
theorem renderRel_dotdot : ∀ (rcs : List (List Char)),
    rcs.head? = some ['.', '.'] → hasPfx ".." (renderRel rcs) = true := by
  intro rcs h
  cases rcs with
  | nil => simp at h
  | cons c rest =>
    simp at h
    subst h
    unfold renderRel
    rw [if_neg (by simp)]
    cases rest with
    | nil => decide
    | cons d ds =>
      show List.isPrefixOf ['.', '.']
        (joinSlash (['.', '.'] :: d :: ds)) = true
      rw [joinSlash_cons _ (by simp : (d :: ds : List (List Char)) ≠ [])]
      simp [List.isPrefixOf]

/-- Every list is a Boolean prefix of itself followed by anything. -/
theorem isPrefixOf_self_append : ∀ (a b : List Char),
    List.isPrefixOf a (a ++ b) = true := by
  intro a
  induction a with
  | nil => intro b; simp [List.isPrefixOf]
  | cons c a' ih => intro b; simp [List.isPrefixOf, ih]

/-- The spec-level nesting test holds when the path equals the cleaned
root. -/
theorem specNested_of_eq {p root : String} (h : p = clean root) :
    specNestedUnder p root = true := by
  simp [specNestedUnder, h]

/-- The spec-level nesting test holds when the cleaned root is `"/"` and
the path is absolute. -/
theorem specNested_root {p root : String} (h : clean root = "/")
    (hp : isAbs p = true) : specNestedUnder p root = true := by
  simp [specNestedUnder, h, hp]

/-- The spec-level nesting test holds when the path extends the cleaned
root by a separator. -/
theorem specNested_of_pfx {p root : String} (h : ¬ clean root = "/")
    (hp : hasPfx (String.mk ((clean root).data ++ ['/'])) p = true) :
    specNestedUnder p root = true := by
  simp [specNestedUnder, h, hp]

/-- Core of the corrected containment claim: if `filepath.Rel` between the
document root and the cleaned absolute script succeeds with a relative
path that does not begin with `".."`, the cleaned script is equal to or
nested under the (cleaned) document root. -/
theorem rel_accepts_nested {script docRoot : String}
    (habs : isAbs script = true) {r : String}
    (hrel : rel docRoot (clean script) = some r)
    (hpfx : hasPfx ".." r = false) :
    specNestedUnder (clean script) docRoot = true := by
  have hidem := clean_idem_abs habs
  have htabs : (cleanComps (clean script)).abs = true := by
    rw [hidem]; exact habs
  by_cases heq : renderPath (cleanComps docRoot) =
      renderPath (cleanComps (clean script))
  · apply specNested_of_eq
    calc clean script = renderPath (cleanComps script) := rfl
      _ = renderPath (cleanComps (clean script)) := by rw [hidem]
      _ = renderPath (cleanComps docRoot) := heq.symm
      _ = clean docRoot := rfl
  · have habseq : (cleanComps docRoot).abs = (cleanComps (clean script)).abs := by
      by_contra hne
      have : rel docRoot (clean script) = none := by
        simp only [rel, if_neg heq]
        rw [if_pos hne]
      rw [this] at hrel
      exact Option.noConfusion hrel
    have hbabs : (cleanComps docRoot).abs = true := by rw [habseq]; exact htabs
    obtain ⟨rcs, hwalk, hr⟩ :
        ∃ rcs, relWalk (cleanComps docRoot).comps
            (cleanComps (clean script)).comps = some rcs ∧
          r = renderRel rcs := by
      have hcnd1 : ¬((cleanComps docRoot).abs ≠ (cleanComps (clean script)).abs) :=
        not_not_intro habseq
      have hcnd2 : ¬((cleanComps (clean script)).abs = false ∧
          (cleanComps (clean script)).comps = []) := by
        rw [htabs]; simp
      have hrel' := hrel
      simp only [rel] at hrel'
      rw [if_neg heq, if_neg hcnd1, if_neg hcnd2] at hrel'
      cases hw : relWalk (cleanComps docRoot).comps
          (cleanComps (clean script)).comps with
      | none => rw [hw] at hrel'; simp at hrel'
      | some rcs =>
        rw [hw] at hrel'
        simp at hrel'
        exact ⟨rcs, rfl, hrel'.symm⟩
    rcases relWalk_spec _ _ _ hwalk with ⟨ts', hts, hrcs⟩ | hdd
    · subst hrcs
      cases hts2 : rcs with
      | nil =>
        exfalso
        apply heq
        apply congrArg renderPath
        apply PathC.ext' habseq
        rw [hts, hts2]
        simp
      | cons u us =>
        subst hts2
        have hjoin : (cleanComps (clean script)).comps =
            (cleanComps docRoot).comps ++ u :: us := hts
        have hscript : clean script =
            renderPath (cleanComps (clean script)) := by rw [hidem]; rfl
        cases hbc : (cleanComps docRoot).comps with
        | nil =>
          apply specNested_root
          · show renderPath (cleanComps docRoot) = "/"
            unfold renderPath
            rw [if_pos hbabs, hbc]
            rfl
          · rw [hscript]
            unfold renderPath
            rw [if_pos htabs]
            rfl
        | cons b0 bs0 =>
          have hbne : (cleanComps docRoot).comps ≠ [] := by rw [hbc]; simp
          have hjb : joinSlash (cleanComps docRoot).comps ≠ [] := by
            apply joinSlash_ne_nil _ hbne
            intro x hx
            exact (cleanComps_wf docRoot x hx).1
          have hroot : clean docRoot =
              String.mk ('/' :: joinSlash (cleanComps docRoot).comps) := by
            unfold clean renderPath
            rw [if_pos hbabs]
          apply specNested_of_pfx
          · rw [hroot]
            intro hcon
            have : ('/' :: joinSlash (cleanComps docRoot).comps) = ['/'] := by
              have := congrArg String.data hcon
              simpa using this
            apply hjb
            injection this
          · rw [hroot, hscript]
            unfold renderPath
            rw [if_pos htabs, hjoin,
              joinSlash_append _ _ hbne (by simp)]
            show List.isPrefixOf ('/' :: joinSlash (cleanComps docRoot).comps ++ ['/'])
              ('/' :: (joinSlash (cleanComps docRoot).comps ++
                '/' :: joinSlash (u :: us))) = true
            have : ('/' :: (joinSlash (cleanComps docRoot).comps ++
                '/' :: joinSlash (u :: us))) =
                ('/' :: joinSlash (cleanComps docRoot).comps ++ ['/']) ++
                  joinSlash (u :: us) := by simp
            rw [this]
            exact isPrefixOf_self_append _ _
    · rw [hr] at hpfx
      rw [renderRel_dotdot rcs hdd] at hpfx
      exact Bool.noConfusion hpfx

/-- C1 counterexample: the script path `/r/a/../..x` contains a `".."`
component and normalizes to `/r/..x`, which is nested under the document
root `/r` — yet `validateScript` rejects it at the containment step (the
filesystem here would accept any path), because the relative path `..x`
textually begins with `".."`.  So the containment check does not reject
*exactly* the paths outside the document root. -/
theorem C1_containment_cex :
    clean "/r/a/../..x" = "/r/..x" ∧
    specNestedUnder (clean "/r/a/../..x") "/r" = true ∧
    validateScript fsAllRegular "/r/a/../..x" "/r" = .error .outsideDocRoot :=
  ⟨rfl, rfl, rfl⟩

/-- C1 (amended): for an absolute candidate script and a non-empty
document root, `validateScript` rejects with the "outside document root"
error *whenever* the lexically normalized path is not equal to or nested
under the root; and it passes the containment step (proceeding to the
filesystem checks) exactly when `filepath.Rel` from the root succeeds with
a relative path that does not textually begin with `".."` — in particular
a path with `".."` components normalizing back inside the root is
accepted whenever that relative path does not begin with `".."`. -/
theorem C1_containment_sound (fs : FS) (script docRoot : String)
    (habs : isAbs script = true) (hdr : docRoot ≠ "") :
    (specNestedUnder (clean script) docRoot = false →
      validateScript fs script docRoot = .error .outsideDocRoot) ∧
    (∀ r, rel docRoot (clean script) = some r → hasPfx ".." r = false →
      validateScript fs script docRoot = checkFile (fs.lstat (clean script))) := by
  have habs' : checkAbs script = .ok () := by simp [checkAbs, habs]
  constructor
  · intro hnest
    have hcont : checkContainment (clean script) docRoot =
        .error .outsideDocRoot := by
      unfold checkContainment
      rw [if_pos hdr]
      cases hrel : rel docRoot (clean script) with
      | none => rfl
      | some r =>
        cases hpfx : hasPfx ".." r with
        | false =>
          have := rel_accepts_nested habs hrel hpfx
          rw [hnest] at this
          exact Bool.noConfusion this
        | true => simp [hpfx]
    simp only [validateScript, habs', hcont]
    rfl
  · intro r hrel hpfx
    have hcont : checkContainment (clean script) docRoot = .ok () := by
      unfold checkContainment
      rw [if_pos hdr, hrel]
      simp [hpfx]
    simp only [validateScript, habs', hcont]
    rfl

/-- Witness for C1 (amended): a path outside the root is rejected at
containment even on a filesystem that would accept it, and a path with a
`".."` component normalizing back inside the root proceeds to the file
checks and passes. -/
theorem C1_containment_sound_witness :
    validateScript fsAllRegular "/etc/x" "/r" = .error .outsideDocRoot ∧
    validateScript fsAllRegular "/r/a/../ok" "/r" = .ok () := by
  have h1 := C1_containment_sound fsAllRegular "/etc/x" "/r" rfl (by decide)
  have h2 := C1_containment_sound fsAllRegular "/r/a/../ok" "/r" rfl (by decide)
  exact ⟨h1.1 rfl, (h2.2 "ok" rfl rfl).trans (by rfl)⟩

end Fcgi
